import Mathlib

/-!
# Verification of `haicor.process.extractor` (HAICOR-Project)

Shallow embedding of `src/haicor/process/extractor.py`: the trie builder
`TrieConceptExtractor.to_trie` (with its inner `build_trie`) and the
generator `TrieConceptExtractor.extract`.

The Python code is dynamically typed and the distinction between Python
`list` and `tuple` values is semantically relevant: `build_trie` tests
`[] in entries`, where `entries` only ever holds tuples (the declared
element type is `Tuple[str, ...]`, and slicing a tuple yields a tuple).
In Python, `[] == ()` is `False` (a list never compares equal to a
tuple), so we embed the entry values as a sum type `PySeq` carrying the
list/tuple tag, with Python's `==` as `pyEq`.

Tokens are strings; Python compares strings lexicographically by code
point, which we model by comparing the `List Char` of code points.
-/

/-- A Python sequence value appearing in the builder: either a `list`
or a `tuple` of strings, tagged with its runtime type. -/
inductive PySeq where
  | pylist : List String → PySeq
  | pytuple : List String → PySeq
deriving DecidableEq, Repr

namespace PySeq

/-- The underlying token sequence of a `PySeq`. -/
def toks : PySeq → List String
  | pylist xs => xs
  | pytuple xs => xs

/-- Python `==` on sequence values: a `list` and a `tuple` are never
equal; two sequences of the same kind are equal iff their elements are. -/
def pyEq : PySeq → PySeq → Bool
  | pylist a, pylist b => a = b
  | pytuple a, pytuple b => a = b
  | _, _ => false

/-- Python truthiness of a sequence: nonempty. Used by `if i` in
`(i for i in entries if i)`. -/
def truthy : PySeq → Bool
  | pylist a => !a.isEmpty
  | pytuple a => !a.isEmpty

/-- `x[0]` for a (nonempty) sequence; defaults to `""` on the empty
sequence, which the source never evaluates (entries are filtered to be
truthy before grouping). -/
def pyHead (x : PySeq) : String := x.toks.headD ""

/-- `x[1:]`: slicing preserves the runtime kind (a tuple slice is a
tuple, a list slice is a list). -/
def pyTail : PySeq → PySeq
  | pylist a => pylist a.tail
  | pytuple a => pytuple a.tail

/-- Length of the underlying sequence. -/
def pyLen (x : PySeq) : Nat := x.toks.length

/-- Whether the value is a tuple. -/
def isTuple : PySeq → Bool
  | pylist _ => false
  | pytuple _ => true

end PySeq

open PySeq

/-- Python `x in l` membership test, by Python `==`. -/
def pyIn (x : PySeq) (l : List PySeq) : Bool := l.any (pyEq x)

/-- `itertools.groupby(l, key)`: the maximal runs of consecutive
elements of `l` with equal key, each run paired with its key. -/
def groupByRuns {α β : Type} [DecidableEq β] (key : α → β) : List α → List (β × List α)
  | [] => []
  | x :: xs =>
    match groupByRuns key xs with
    | [] => [(key x, [x])]
    | (k, g) :: rest =>
      if key x = k then (key x, x :: g) :: rest
      else (key x, [x]) :: (k, g) :: rest

/-- The trie value built by `build_trie`: a Python `dict` mapping each
token to the pair `(matched, sub-trie)` returned by the recursive call.
The dict is embedded as an association list in key order (the order
`groupby` produces, i.e. sorted, distinct keys). -/
inductive Trie where
  | node : List (String × Bool × Trie) → Trie

/-- Children association list of a trie node. -/
def Trie.children : Trie → List (String × Bool × Trie)
  | .node cs => cs

/-- Total length of all entries; the termination measure of `build_trie`. -/
def totalLen (entries : List PySeq) : Nat := (entries.map pyLen).sum

/-- Every group produced by `groupByRuns` is nonempty and a sublist of
the input. -/
theorem groupByRuns_mem {α β : Type} [DecidableEq β] (key : α → β) :
    ∀ (l : List α) (p : β × List α), p ∈ groupByRuns key l →
      p.2 ≠ [] ∧ p.2.Sublist l := by
  intro l
  induction l with
  | nil => intro p hp; simp [groupByRuns] at hp
  | cons x xs ih =>
    intro p hp
    simp only [groupByRuns] at hp
    rcases hg : groupByRuns key xs with _ | ⟨⟨k, g⟩, rest⟩
    · rw [hg] at hp
      simp at hp
      subst hp
      exact ⟨by simp, by simp⟩
    · rw [hg] at hp
      by_cases hk : key x = k
      · simp [hk] at hp
        rcases hp with hp | hp
        · subst hp
          have := ih (k, g) (by rw [hg]; exact List.mem_cons_self _ _)
          exact ⟨by simp, List.Sublist.cons₂ _ this.2⟩
        · have := ih p (by rw [hg]; exact List.mem_cons_of_mem _ hp)
          exact ⟨this.1, this.2.cons _⟩
      · simp [hk] at hp
        rcases hp with hp | hp
        · subst hp
          exact ⟨by simp, by simp⟩
        · have := ih p (by rw [hg]; exact List.mem_cons.mpr hp)
          exact ⟨this.1, this.2.cons _⟩

/-- Sublist preserves `totalLen` bound. -/
theorem totalLen_sublist {l₁ l₂ : List PySeq} (h : l₁.Sublist l₂) :
    totalLen l₁ ≤ totalLen l₂ :=
  List.Sublist.sum_le_sum (h.map pyLen) (by intro a _; exact Nat.zero_le a)

/-- Taking the tail of every member of a nonempty list of truthy
sequences strictly decreases the total length. -/
theorem totalLen_tails_lt {l : List PySeq} (hne : l ≠ [])
    (ht : ∀ x ∈ l, truthy x = true) :
    totalLen (l.map pyTail) < totalLen l := by
  induction l with
  | nil => exact absurd rfl hne
  | cons x xs ih =>
    have hx : pyLen (pyTail x) < pyLen x := by
      have := ht x (List.mem_cons_self _ _)
      cases x with
      | pylist a => cases a with
        | nil => simp [truthy] at this
        | cons b bs => simp [pyTail, pyLen, toks]
      | pytuple a => cases a with
        | nil => simp [truthy] at this
        | cons b bs => simp [pyTail, pyLen, toks]
    cases xs with
    | nil => simpa [totalLen] using hx
    | cons y ys =>
      have hrest := ih (by simp) (fun z hz => ht z (List.mem_cons_of_mem _ hz))
      simp only [List.map_cons, totalLen, List.sum_cons] at *
      omega

/-- `build_trie(entries)` from the source:

```python
def build_trie(entries):
    match, entries = [] in entries, (i for i in entries if i)
    return match, {head: build_trie([i[1:] for i in tails])
                   for head, tails in groupby(entries, key=lambda x: x[0])}
```

The membership test `[] in entries` compares the empty *list* against
each entry with Python `==` (`pyEq`); truthiness filtering and grouping
by first token follow the source. -/
def build_trie (entries : List PySeq) : Bool × Trie :=
  (pyIn (PySeq.pylist []) entries,
   Trie.node ((groupByRuns pyHead (entries.filter truthy)).attach.map
     (fun g => (g.1.1, build_trie (g.1.2.map pyTail)))))
termination_by totalLen entries
decreasing_by
  have h := groupByRuns_mem pyHead (entries.filter truthy) g.1 g.2
  have ht : ∀ x ∈ g.1.2, truthy x = true := by
    intro x hx
    have := h.2.subset hx
    exact List.of_mem_filter this
  calc totalLen (g.1.2.map pyTail) < totalLen g.1.2 := totalLen_tails_lt h.1 ht
    _ ≤ totalLen (entries.filter truthy) := totalLen_sublist h.2
    _ ≤ totalLen entries := totalLen_sublist (List.filter_sublist _)

/-- Python `<=` on concepts (tuples of strings): lexicographic tuple
comparison, strings compared lexicographically by code point. -/
def tupLe (a b : List String) : Bool :=
  decide (a.map String.data ≤ b.map String.data)

/-- `sorted(dictionary)` in `to_trie`. -/
def sortConcepts (dictionary : List (List String)) : List (List String) :=
  dictionary.mergeSort tupLe

/-- `TrieConceptExtractor.to_trie(dictionary)`: sort the concepts
(tuples of strings) and build the trie, returning only component `[1]`
(the root's children dict); the root's `match` flag is discarded. -/
def to_trie (dictionary : List (List String)) : Trie :=
  (build_trie ((sortConcepts dictionary).map PySeq.pytuple)).2

/-- `token in pointer` / `pointer.get(token)`: dict lookup. -/
def Trie.lookup (t : Trie) (token : String) : Option (Bool × Trie) :=
  List.lookup token t.children

/-- One active match of the extractor's worklist: the pair
`((start, match), pointer)` of the source. -/
abbrev ActiveMatch := (Nat × List String) × Trie

/-- The body of the inner `for (start, match), pointer in matches` loop
for one worklist entry `p`: `None` models `continue` when `token` has no
child at the pointer; otherwise the hit carries the child's `matched`
flag, the extended pair `(start, match + [token])` and the child node
the pointer advances to. -/
def stepHit (token : String) (p : ActiveMatch) :
    Option ((Bool × (Nat × List String)) × Trie) :=
  match p.2.lookup token with
  | none => none
  | some q => some ((q.1, (p.1.1, p.1.2 ++ [token])), q.2)

/-- One iteration of the `for index, token in enumerate(tokens)` loop of
`TrieConceptExtractor.extract`: append the fresh seed
`((index, []), self.dictionary)`, then walk the worklist in order,
dropping entries whose pointer has no child for `token`, yielding
`(start, match + [token])` whenever the child's `matched` flag is set,
and collecting `((start, match + [token]), child)` into `updates`.
Returns (tokens yielded this iteration, `updates`). -/
def extractStep (token : String) (index : Nat) (root : Trie)
    (actives : List ActiveMatch) :
    List (Nat × List String) × List ActiveMatch :=
  let ms := actives ++ [((index, []), root)]
  let hits := ms.filterMap (stepHit token)
  (hits.filterMap (fun h => if h.1.1 then some h.1.2 else none),
   hits.map (fun h => (h.1.2, h.2)))

/-- The extraction loop from an arbitrary iteration: `index` is the
current token index, `actives` (named `matches` in the source; `matches` is a Lean keyword) the carried-over worklist. Returns the
full (finite) sequence of yields of the generator. -/
def extractFrom (root : Trie) : List String → Nat → List ActiveMatch →
    List (Nat × List String)
  | [], _, _ => []
  | token :: rest, index, actives =>
    (extractStep token index root actives).1 ++
      extractFrom root rest (index + 1) (extractStep token index root actives).2

/-- `TrieConceptExtractor(dictionary).extract(tokens)`: run the loop
from index 0 with an empty worklist against the built trie. -/
def extract (root : Trie) (tokens : List String) : List (Nat × List String) :=
  extractFrom root tokens 0 []

/-- The post-iteration worklist states of the extraction loop, one per
consumed token: the successive values of `matches` after the
`matches, updates = updates, []` swap. -/
def matchStates (root : Trie) : List String → Nat → List ActiveMatch →
    List (List ActiveMatch)
  | [], _, _ => []
  | token :: rest, index, actives =>
    (extractStep token index root actives).2 ::
      matchStates root rest (index + 1) (extractStep token index root actives).2

/-- Sanity check of the loop model on a hand-built trie with concept-end
flags set (dictionary `{("cat",), ("cat","nap")}` as the *intended*
builder would flag it): nested matches at the same start are both
emitted, in completion order. -/
example :
    extract (Trie.node [("cat", true, Trie.node [("nap", true, Trie.node [])])])
      ["cat", "nap"] = [(0, ["cat"]), (0, ["cat", "nap"])] := by decide

/-- Sanity check: matching restarts at every position (intended-flag
trie for `{("x",)}` over `["y","x","x"]`). -/
example :
    extract (Trie.node [("x", true, Trie.node [])]) ["y", "x", "x"] =
      [(1, ["x"]), (2, ["x"])] := by decide

/-- Unfolding equation for `build_trie` with the `attach` of the
well-founded recursion eliminated. -/
theorem build_trie_eq (entries : List PySeq) :
    build_trie entries =
      (pyIn (PySeq.pylist []) entries,
       Trie.node ((groupByRuns pyHead (entries.filter truthy)).map
         (fun g => (g.1, build_trie (g.2.map pyTail))))) := by
  rw [build_trie]
  exact congrArg _ (congrArg Trie.node
    (List.attach_map_coe _
      (fun p : String × List PySeq => (p.1, build_trie (p.2.map pyTail)))))

/-- An association-list lookup hit is a member of the list. -/
theorem mem_of_lookup_eq_some {β : Type} {a : String} {l : List (String × β)}
    {b : β} (h : List.lookup a l = some b) : (a, b) ∈ l := by
  induction l with
  | nil => simp [List.lookup] at h
  | cons x xs ih =>
    rw [List.lookup] at h
    split at h
    · rename_i heq
      simp only [Option.some.injEq] at h
      subst h
      have ha : a = x.1 := by simpa using heq
      rw [ha]
      simp
    · exact List.mem_cons_of_mem _ (ih h)

/-- Every `matched` flag stored anywhere in a trie is `false`. -/
inductive AllFalse : Trie → Prop
  | node (cs : List (String × Bool × Trie))
      (hflag : ∀ c ∈ cs, c.2.1 = false)
      (hsub : ∀ c ∈ cs, AllFalse c.2.2) : AllFalse (.node cs)

/-- Looking up a child in an all-false trie yields a `false` flag and an
all-false subtrie. -/
theorem AllFalse.lookup {t : Trie} (ht : AllFalse t) {token : String}
    {q : Bool × Trie} (h : t.lookup token = some q) :
    q.1 = false ∧ AllFalse q.2 := by
  cases ht with
  | node cs hflag hsub =>
    have hm : (token, q) ∈ cs := mem_of_lookup_eq_some h
    exact ⟨hflag (token, q) hm, hsub (token, q) hm⟩

/-- `[] in entries` is `false` whenever every entry is a tuple: in
Python a list never compares equal to a tuple. -/
theorem pyIn_pylist_nil_eq_false {entries : List PySeq}
    (h : ∀ x ∈ entries, x.isTuple = true) :
    pyIn (PySeq.pylist []) entries = false := by
  rw [pyIn, List.any_eq_false]
  intro x hx
  have := h x hx
  cases x with
  | pylist a => simp [isTuple] at this
  | pytuple a => simp [pyEq]

/-- The slip at the heart of the module: since every entry reaching
`build_trie` is a tuple (`sorted(dictionary)` holds tuples, and slicing
a tuple yields a tuple), the test `[] in entries` is always `false`, so
the returned `match` flag and every flag in the returned trie are
`false`. -/
theorem build_trie_flags :
    ∀ (n : Nat) (entries : List PySeq), totalLen entries = n →
      (∀ x ∈ entries, x.isTuple = true) →
      (build_trie entries).1 = false ∧ AllFalse (build_trie entries).2 := by
  intro n
  induction n using Nat.strong_induction_on with
  | _ n ih =>
    intro entries hn htup
    rw [build_trie_eq]
    have hall : ∀ c ∈ (groupByRuns pyHead (entries.filter truthy)).map
        (fun g => (g.1, build_trie (g.2.map pyTail))),
        c.2.1 = false ∧ AllFalse c.2.2 := ?_
    · exact ⟨pyIn_pylist_nil_eq_false htup,
        AllFalse.node _ (fun c hc => (hall c hc).1) (fun c hc => (hall c hc).2)⟩
    intro c hc
    simp only [List.mem_map] at hc
    obtain ⟨g, hg, rfl⟩ := hc
    have hgrp := groupByRuns_mem pyHead (entries.filter truthy) g hg
    have hts : ∀ x ∈ g.2, truthy x = true := by
      intro x hx
      exact List.of_mem_filter (hgrp.2.subset hx)
    have hlt : totalLen (g.2.map pyTail) < n := by
      calc totalLen (g.2.map pyTail) < totalLen g.2 := totalLen_tails_lt hgrp.1 hts
        _ ≤ totalLen (entries.filter truthy) := totalLen_sublist hgrp.2
        _ ≤ totalLen entries := totalLen_sublist (List.filter_sublist _)
        _ = n := hn
    have htup' : ∀ x ∈ g.2.map pyTail, x.isTuple = true := by
      intro x hx
      simp only [List.mem_map] at hx
      obtain ⟨y, hy, rfl⟩ := hx
      have : y.isTuple = true :=
        htup y ((List.filter_sublist _).subset (hgrp.2.subset hy))
      cases y with
      | pylist a => simp [isTuple] at this
      | pytuple a => simp [isTuple, pyTail]
    exact ih _ hlt (g.2.map pyTail) rfl htup'

/-- The trie built by `to_trie` from any dictionary of tuples carries
only `false` concept-end flags. -/
theorem to_trie_allFalse (dictionary : List (List String)) :
    AllFalse (to_trie dictionary) := by
  have htup : ∀ x ∈ (sortConcepts dictionary).map PySeq.pytuple, x.isTuple = true := by
    intro x hx
    simp only [List.mem_map] at hx
    obtain ⟨y, _, rfl⟩ := hx
    rfl
  exact (build_trie_flags _ _ rfl htup).2

/-- A step of the loop against an all-false trie yields nothing and
keeps every carried pointer all-false. -/
theorem extractStep_allFalse (token : String) (index : Nat) {root : Trie}
    (hroot : AllFalse root) {actives : List ActiveMatch}
    (hact : ∀ p ∈ actives, AllFalse p.2) :
    (extractStep token index root actives).1 = [] ∧
      ∀ p ∈ (extractStep token index root actives).2, AllFalse p.2 := by
  have hms : ∀ p ∈ actives ++ [((index, ([] : List String)), root)], AllFalse p.2 := by
    intro p hp
    rcases List.mem_append.mp hp with h | h
    · exact hact p h
    · simp only [List.mem_singleton] at h
      subst h
      exact hroot
  have hhit : ∀ h ∈ (actives ++ [((index, ([] : List String)), root)]).filterMap
      (stepHit token), h.1.1 = false ∧ AllFalse h.2 := by
    intro h hh
    rw [List.mem_filterMap] at hh
    obtain ⟨p, hp, heq⟩ := hh
    rw [stepHit] at heq
    rcases hlk : p.2.lookup token with _ | q
    · rw [hlk] at heq; exact absurd heq (by simp)
    · rw [hlk] at heq
      simp only [Option.some.injEq] at heq
      subst heq
      have := (hms p hp).lookup hlk
      exact ⟨this.1, this.2⟩
  constructor
  · rw [extractStep]
    simp only []
    rw [List.filterMap_eq_nil_iff]
    intro h hh
    rw [(hhit h hh).1]
    rfl
  · intro p hp
    rw [extractStep] at hp
    simp only [List.mem_map] at hp
    obtain ⟨h, hh, rfl⟩ := hp
    exact (hhit h hh).2

/-- The loop against an all-false trie yields nothing, from any index
and any all-false worklist. -/
theorem extractFrom_allFalse {root : Trie} (hroot : AllFalse root) :
    ∀ (tokens : List String) (index : Nat) (actives : List ActiveMatch),
      (∀ p ∈ actives, AllFalse p.2) →
      extractFrom root tokens index actives = [] := by
  intro tokens
  induction tokens with
  | nil => intro index actives _; rfl
  | cons token rest ih =>
    intro index actives hact
    have hstep := extractStep_allFalse token index hroot hact
    rw [extractFrom, hstep.1, List.nil_append]
    exact ih (index + 1) _ hstep.2

/-- `extract` against any trie built by `to_trie` yields the empty
sequence of matches. -/
theorem extract_to_trie_eq_nil (dictionary : List (List String))
    (tokens : List String) : extract (to_trie dictionary) tokens = [] :=
  extractFrom_allFalse (to_trie_allFalse dictionary) tokens 0 []
    (by intro p hp; simp at hp)

/-- The `is_concept_end` flag (the `matched` component stored in the
dict) of the node reached from the root children mapping by following
`path`; `none` if the path leaves the trie or is empty (the root's own
flag is not part of `to_trie`'s result). -/
def flagAt (t : Trie) : List String → Option Bool
  | [] => none
  | [token] => (t.lookup token).map Prod.fst
  | token :: rest =>
    match t.lookup token with
    | none => none
    | some q => flagAt q.2 rest

/-- C9: with concepts given as tuples of strings (the declared parameter
type `Tuple[str, ...]`), `extract` yields no matches at all for any
dictionary and any token stream: `build_trie` tests `[] in entries`, an
empty *list* never equals a tuple in Python, so no trie node is ever
flagged as a concept end. -/
theorem C9_tuple_dictionary_extracts_nothing (dictionary : List (List String))
    (tokens : List String) : extract (to_trie dictionary) tokens = [] :=
  extract_to_trie_eq_nil dictionary tokens

/-- C1 (refuted by the code, evaluated at the failing input): with
dictionary `{("cat",)}` and stream `["cat"]`, the concept occurs at
index 0, yet `extract` emits nothing — the pair `(0, ("cat",))` does
not appear, contradicting completeness. -/
theorem C1_completeness_fails_at_cat :
    extract (to_trie [["cat"]]) ["cat"] = [] :=
  extract_to_trie_eq_nil [["cat"]] ["cat"]

/-- C2: soundness. Every pair `(start, tokens)` yielded by `extract`
satisfies `tokens ∈ D` and `S[start : start+len(tokens)] == tokens`.
It holds vacuously: the extractor never yields (see
`extract_to_trie_eq_nil`). -/
theorem C2_soundness (dictionary : List (List String)) (tokens : List String) :
    List.Forall
      (fun p : Nat × List String =>
        p.2 ∈ dictionary ∧ (tokens.drop p.1).take p.2.length = p.2)
      (extract (to_trie dictionary) tokens) := by
  rw [extract_to_trie_eq_nil]
  trivial

/-- C3: ordering. Yielded matches are in non-decreasing order of
completion index (`start + length - 1`), ties broken by ascending start
index. It holds vacuously: the extractor never yields. -/
theorem C3_ordering (dictionary : List (List String)) (tokens : List String) :
    (extract (to_trie dictionary) tokens).Pairwise
      (fun a b : Nat × List String =>
        a.1 + a.2.length - 1 < b.1 + b.2.length - 1 ∨
          (a.1 + a.2.length - 1 = b.1 + b.2.length - 1 ∧ a.1 < b.1)) := by
  rw [extract_to_trie_eq_nil]
  exact List.Pairwise.nil

unseal build_trie List.mergeSort List.merge in
/-- C4 (refuted by the code, evaluated at the failing input): in the
trie built from `{("cat",)}`, following the concept's token path reaches
a node whose `is_concept_end` flag is `false`, not `true`. -/
theorem C4_concept_end_flag_is_false :
    flagAt (to_trie [["cat"]]) ["cat"] = some false := by decide

/-- C5 (refuted by the code, evaluated at the failing input): with
dictionary `{("cat",), ("cat","nap")}` and stream `["cat","nap"]`,
`extract` yields nothing instead of `(0,["cat"])` followed by
`(0,["cat","nap"])`. -/
theorem C5_nested_overlap_fails :
    extract (to_trie [["cat"], ["cat", "nap"]]) ["cat", "nap"] = [] :=
  extract_to_trie_eq_nil [["cat"], ["cat", "nap"]] ["cat", "nap"]

/-- C6: no zero-length match is ever emitted — every yielded match has
at least one token. It holds vacuously: the extractor never yields. -/
theorem C6_no_zero_length_match (dictionary : List (List String))
    (tokens : List String) :
    List.Forall (fun p : Nat × List String => 1 ≤ p.2.length)
      (extract (to_trie dictionary) tokens) := by
  rw [extract_to_trie_eq_nil]
  trivial

/-- C7: two input collections containing the same set of concepts
(regardless of order and duplicates) give tries with identical
extraction output on every stream. It holds because extraction output
is `[]` for every dictionary of tuples. -/
theorem C7_construction_insensitive (d₁ d₂ : List (List String))
    (hset : ∀ c, c ∈ d₁ ↔ c ∈ d₂) (tokens : List String) :
    extract (to_trie d₁) tokens = extract (to_trie d₂) tokens := by
  rw [extract_to_trie_eq_nil, extract_to_trie_eq_nil]

/-- Witness for C7 at a concrete input: `[["a"], ["a"]]` and `[["a"]]`
contain the same set of concepts, and extraction over `["a"]` agrees. -/
theorem C7_construction_insensitive_witness :
    extract (to_trie [["a"], ["a"]]) ["a"] = extract (to_trie [["a"]]) ["a"] :=
  C7_construction_insensitive [["a"], ["a"]] [["a"]] (by intro c; simp) ["a"]

/-- `tupLe` is transitive (Python tuple comparison is a total order). -/
theorem tupLe_trans (a b c : List String) (hab : tupLe a b = true)
    (hbc : tupLe b c = true) : tupLe a c = true := by
  simp only [tupLe, decide_eq_true_eq] at *
  exact le_trans hab hbc

/-- `tupLe` is total. -/
theorem tupLe_total (a b : List String) : (tupLe a b || tupLe b a) = true := by
  simp only [tupLe, Bool.or_eq_true, decide_eq_true_eq]
  exact le_total _ _

/-- `tupLe` is antisymmetric. -/
theorem tupLe_antisymm (a b : List String) (hab : tupLe a b = true)
    (hba : tupLe b a = true) : a = b := by
  simp only [tupLe, decide_eq_true_eq] at hab hba
  have hmap : a.map String.data = b.map String.data := le_antisymm hab hba
  have hinj : Function.Injective String.data := by
    intro s t h
    cases s
    cases t
    exact congrArg String.mk h
  exact List.map_injective_iff.mpr hinj hmap

/-- Sorting commutes with filtering: filtering a sorted copy of the
dictionary gives the sorted copy of the filtered dictionary. -/
theorem sortConcepts_filter (p : List String → Bool)
    (dictionary : List (List String)) :
    (sortConcepts dictionary).filter p = sortConcepts (dictionary.filter p) := by
  refine @List.eq_of_perm_of_sorted (List String)
    (fun a b => tupLe a b = true) ⟨tupLe_antisymm⟩ _ _ ?_ ?_ ?_
  · exact ((List.mergeSort_perm dictionary tupLe).filter p).trans
      (List.mergeSort_perm (dictionary.filter p) tupLe).symm
  · exact (List.sorted_mergeSort tupLe_trans tupLe_total dictionary).filter p
  · exact List.sorted_mergeSort tupLe_trans tupLe_total (dictionary.filter p)

/-- The children component of `build_trie` depends only on the truthy
(nonempty) entries: the `match` flag is computed before filtering, but
only component `[1]` looks past it. -/
theorem build_trie_snd_congr {e₁ e₂ : List PySeq}
    (h : e₁.filter truthy = e₂.filter truthy) :
    (build_trie e₁).2 = (build_trie e₂).2 := by
  rw [build_trie_eq, build_trie_eq]
  simp only [h]

/-- C10: `to_trie` returns only the root's children and discards the
root's flag, so the built trie — and with it every extraction result —
is unchanged when all empty concepts are removed from the dictionary. -/
theorem C10_empty_concepts_unobservable (dictionary : List (List String)) :
    to_trie dictionary = to_trie (dictionary.filter (fun c => !c.isEmpty)) ∧
      ∀ tokens, extract (to_trie dictionary) tokens =
        extract (to_trie (dictionary.filter (fun c => !c.isEmpty))) tokens := by
  have htrie : to_trie dictionary =
      to_trie (dictionary.filter (fun c => !c.isEmpty)) := by
    rw [to_trie, to_trie]
    apply build_trie_snd_congr
    rw [List.filter_map, List.filter_map]
    have hcomp : truthy ∘ PySeq.pytuple = fun c : List String => !c.isEmpty := by
      funext c
      rfl
    rw [hcomp, sortConcepts_filter, sortConcepts_filter, List.filter_filter]
    congr 1
    ext c
    simp
  exact ⟨htrie, fun tokens => by rw [htrie]⟩

/-- Navigate the trie from the children mapping `t` along `path`,
returning the node reached (the trie value whose children a pointer at
that depth holds). -/
def reach (t : Trie) : List String → Option Trie
  | [] => some t
  | token :: rest =>
    match t.lookup token with
    | none => none
    | some q => reach q.2 rest

/-- Maximum entry length of a list of Python sequences. -/
def maxPyLen (entries : List PySeq) : Nat :=
  entries.foldr (fun x acc => max (pyLen x) acc) 0

/-- Maximum concept length of a dictionary (0 for the empty dictionary). -/
def maxConceptLen (dictionary : List (List String)) : Nat :=
  dictionary.foldr (fun c acc => max c.length acc) 0

theorem le_maxPyLen {l : List PySeq} {x : PySeq} (h : x ∈ l) :
    pyLen x ≤ maxPyLen l := by
  induction l with
  | nil => simp at h
  | cons y ys ih =>
    rcases List.mem_cons.mp h with h | h
    · subst h; simp [maxPyLen]
    · calc pyLen x ≤ maxPyLen ys := ih h
        _ ≤ maxPyLen (y :: ys) := by simp [maxPyLen]

theorem maxPyLen_le {l : List PySeq} {B : Nat} (h : ∀ x ∈ l, pyLen x ≤ B) :
    maxPyLen l ≤ B := by
  induction l with
  | nil => simp [maxPyLen]
  | cons y ys ih =>
    have h1 := h y (List.mem_cons_self _ _)
    have h2 := ih (fun x hx => h x (List.mem_cons_of_mem _ hx))
    simp only [maxPyLen, List.foldr_cons] at *
    omega

theorem le_maxConceptLen {d : List (List String)} {c : List String}
    (h : c ∈ d) : c.length ≤ maxConceptLen d := by
  induction d with
  | nil => simp at h
  | cons y ys ih =>
    rcases List.mem_cons.mp h with h | h
    · subst h; simp [maxConceptLen]
    · calc c.length ≤ maxConceptLen ys := ih h
        _ ≤ maxConceptLen (y :: ys) := by simp [maxConceptLen]

/-- Any path that stays inside the trie built from `entries` is no
longer than the longest entry: the trie's depth is bounded by the
maximum concept length. -/
theorem build_trie_reach_length :
    ∀ (n : Nat) (entries : List PySeq), totalLen entries = n →
      ∀ (path : List String) (t : Trie),
        reach (build_trie entries).2 path = some t →
        path.length ≤ maxPyLen entries := by
  intro n
  induction n using Nat.strong_induction_on with
  | _ n ih =>
    intro entries hn path t hreach
    cases path with
    | nil => simp
    | cons token rest =>
      rw [build_trie_eq] at hreach
      rw [reach] at hreach
      rcases hlk : (Trie.node ((groupByRuns pyHead (entries.filter truthy)).map
          (fun g => (g.1, build_trie (g.2.map pyTail))))).lookup token with _ | q
      · rw [hlk] at hreach; exact absurd hreach (by simp)
      · rw [hlk] at hreach
        have hmem : (token, q) ∈ (groupByRuns pyHead (entries.filter truthy)).map
            (fun g => (g.1, build_trie (g.2.map pyTail))) :=
          mem_of_lookup_eq_some hlk
        simp only [List.mem_map] at hmem
        obtain ⟨g, hg, heq⟩ := hmem
        have hq2 : q.2 = (build_trie (g.2.map pyTail)).2 :=
          congrArg Prod.snd ((Prod.mk.injEq _ _ _ _).mp heq).2.symm
        have hgrp := groupByRuns_mem pyHead (entries.filter truthy) g hg
        have hts : ∀ x ∈ g.2, truthy x = true := by
          intro x hx
          exact List.of_mem_filter (hgrp.2.subset hx)
        have hlt : totalLen (g.2.map pyTail) < n := by
          calc totalLen (g.2.map pyTail) < totalLen g.2 :=
              totalLen_tails_lt hgrp.1 hts
            _ ≤ totalLen (entries.filter truthy) := totalLen_sublist hgrp.2
            _ ≤ totalLen entries := totalLen_sublist (List.filter_sublist _)
            _ = n := hn
        have hrest : rest.length ≤ maxPyLen (g.2.map pyTail) := by
          apply ih _ hlt (g.2.map pyTail) rfl rest t
          rw [← hq2]
          exact hreach
        obtain ⟨x₀, hx₀⟩ := List.exists_mem_of_ne_nil g.2 hgrp.1
        have hx₀e : x₀ ∈ entries := (List.filter_sublist _).subset (hgrp.2.subset hx₀)
        have hx₀t := hts x₀ hx₀
        have hx₀len : 1 ≤ pyLen x₀ := by
          cases x₀ with
          | pylist a => cases a with
            | nil => simp [truthy] at hx₀t
            | cons b bs => simp [pyLen, toks]
          | pytuple a => cases a with
            | nil => simp [truthy] at hx₀t
            | cons b bs => simp [pyLen, toks]
        have hB1 : 1 ≤ maxPyLen entries := le_trans hx₀len (le_maxPyLen hx₀e)
        have htails : maxPyLen (g.2.map pyTail) ≤ maxPyLen entries - 1 := by
          apply maxPyLen_le
          intro y hy
          simp only [List.mem_map] at hy
          obtain ⟨x, hx, rfl⟩ := hy
          have hxe : x ∈ entries := (List.filter_sublist _).subset (hgrp.2.subset hx)
          have hxl : pyLen x ≤ maxPyLen entries := le_maxPyLen hxe
          have : pyLen (pyTail x) + 1 = pyLen x := by
            have hxt := hts x hx
            cases x with
            | pylist a => cases a with
              | nil => simp [truthy] at hxt
              | cons b bs => simp [pyLen, pyTail, toks]
            | pytuple a => cases a with
              | nil => simp [truthy] at hxt
              | cons b bs => simp [pyLen, pyTail, toks]
          omega
        simp only [List.length_cons]
        omega

/-- The depth of the trie built by `to_trie` is bounded by the maximum
concept length of the dictionary. -/
theorem to_trie_reach_length {dictionary : List (List String)}
    {path : List String} {t : Trie}
    (h : reach (to_trie dictionary) path = some t) :
    path.length ≤ maxConceptLen dictionary := by
  have h1 : path.length ≤ maxPyLen ((sortConcepts dictionary).map PySeq.pytuple) :=
    build_trie_reach_length _ _ rfl path t h
  have h2 : maxPyLen ((sortConcepts dictionary).map PySeq.pytuple) ≤
      maxConceptLen dictionary := by
    apply maxPyLen_le
    intro x hx
    simp only [List.mem_map] at hx
    obtain ⟨c, hc, rfl⟩ := hx
    have hcd : c ∈ dictionary :=
      (List.mergeSort_perm dictionary tupLe).subset hc
    exact le_maxConceptLen hcd
  exact le_trans h1 h2

/-- Unpacking a successful `stepHit`: the hit keeps the start index,
extends the matched tokens by `token`, and advances along a child edge. -/
theorem stepHit_eq_some {token : String} {p : ActiveMatch}
    {h : (Bool × (Nat × List String)) × Trie}
    (hs : stepHit token p = some h) :
    h.1.2 = (p.1.1, p.1.2 ++ [token]) ∧ p.2.lookup token = some (h.1.1, h.2) := by
  rw [stepHit] at hs
  rcases hlk : p.2.lookup token with _ | q
  · rw [hlk] at hs; exact absurd hs (by simp)
  · rw [hlk] at hs
    simp only [Option.some.injEq] at hs
    subst hs
    exact ⟨rfl, rfl⟩

/-- Extending a reachable path by one child edge. -/
theorem reach_append_singleton {root t : Trie} {m : List String}
    (h : reach root m = some t) {token : String} {q : Bool × Trie}
    (hq : t.lookup token = some q) : reach root (m ++ [token]) = some q.2 := by
  induction m generalizing root with
  | nil =>
    rw [reach] at h
    simp only [Option.some.injEq] at h
    subst h
    rw [List.nil_append, reach, hq]
    rfl
  | cons a as ih =>
    rw [List.cons_append, reach]
    rw [reach] at h
    rcases hlk : root.lookup a with _ | q'
    · rw [hlk] at h; exact absurd h (by simp)
    · rw [hlk] at h
      exact ih h

/-- The start indices of the updates are a sublist of the start indices
of the processed worklist: each surviving hit keeps its start. -/
theorem updates_starts_sublist (token : String) :
    ∀ ms : List ActiveMatch,
      ((((ms.filterMap (stepHit token)).map (fun h => (h.1.2, h.2))).map
        (fun p : ActiveMatch => p.1.1)).Sublist
          (ms.map (fun p : ActiveMatch => p.1.1))) := by
  intro ms
  induction ms with
  | nil => simp
  | cons x xs ih =>
    rcases hlk : stepHit token x with _ | h
    · rw [List.filterMap_cons, hlk, List.map_cons]
      exact ih.cons _
    · rw [List.filterMap_cons, hlk, List.map_cons, List.map_cons, List.map_cons]
      have hstart : h.1.2.1 = x.1.1 := by
        rw [(stepHit_eq_some hlk).1]
      rw [hstart]
      exact ih.cons₂ _

/-- Invariant of the worklist at the start of the iteration for token
index `i`: every carried entry has a nonempty match, starts `i` minus
its length tokens ago, and points at the trie node its matched tokens
reach from the root; the start indices are strictly increasing. -/
def StateInv (root : Trie) (i : Nat) (st : List ActiveMatch) : Prop :=
  (∀ p ∈ st, p.1.2 ≠ [] ∧ p.1.1 + p.1.2.length = i ∧
    reach root p.1.2 = some p.2) ∧
  (st.map (fun p : ActiveMatch => p.1.1)).Pairwise (· < ·)

/-- The initial worklist satisfies the invariant. -/
theorem stateInv_init (root : Trie) : StateInv root 0 [] :=
  ⟨fun p hp => absurd hp (List.not_mem_nil p), List.Pairwise.nil⟩

/-- One iteration of the loop preserves the invariant, advancing the
token index. -/
theorem stateInv_step {root : Trie} {i : Nat} {st : List ActiveMatch}
    (hinv : StateInv root i st) (token : String) :
    StateInv root (i + 1) (extractStep token i root st).2 := by
  have hupd : (extractStep token i root st).2 =
      ((st ++ [((i, []), root)]).filterMap (stepHit token)).map
        (fun h : (Bool × (Nat × List String)) × Trie => (h.1.2, h.2)) := rfl
  constructor
  · intro p hp
    rw [hupd, List.mem_map] at hp
    obtain ⟨h, hh, rfl⟩ := hp
    rw [List.mem_filterMap] at hh
    obtain ⟨p₀, hp₀, hs⟩ := hh
    obtain ⟨hpair, hlk⟩ := stepHit_eq_some hs
    rcases List.mem_append.mp hp₀ with hmem | hmem
    · obtain ⟨hne, hlen, hreach⟩ := hinv.1 p₀ hmem
      refine ⟨?_, ?_, ?_⟩
      · rw [hpair]; simp
      · rw [hpair]; simp only [List.length_append, List.length_singleton]
        omega
      · rw [hpair]
        exact reach_append_singleton hreach hlk
    · simp only [List.mem_singleton] at hmem
      subst hmem
      refine ⟨?_, ?_, ?_⟩
      · rw [hpair]; simp
      · rw [hpair]; simp
      · rw [hpair]
        exact @reach_append_singleton root root [] rfl token (h.1.1, h.2) hlk
  · rw [hupd]
    apply List.Pairwise.sublist (updates_starts_sublist token _)
    rw [List.map_append]
    rw [List.pairwise_append]
    refine ⟨hinv.2, by simp, ?_⟩
    intro a ha b hb
    simp only [List.map_cons, List.map_nil, List.mem_singleton] at hb
    subst hb
    rw [List.mem_map] at ha
    obtain ⟨p, hp, rfl⟩ := ha
    obtain ⟨hne, hlen, _⟩ := hinv.1 p hp
    have : 1 ≤ p.1.2.length := List.length_pos.mpr hne
    omega

/-- Counting argument: a worklist satisfying the invariant at index `i`
whose matched-token lengths are bounded by `L` has at most `L` entries —
the start indices are distinct naturals in the window `[i - L, i)`. -/
theorem stateInv_length_le {root : Trie} {L i : Nat} {st : List ActiveMatch}
    (hinv : StateInv root i st)
    (hdepth : ∀ p ∈ st, p.1.2.length ≤ L) :
    st.length ≤ L := by
  have hnodup : (st.map (fun p : ActiveMatch => p.1.1)).Nodup :=
    hinv.2.imp (fun h => Nat.ne_of_lt h)
  have hsub : (st.map (fun p : ActiveMatch => p.1.1)).toFinset ⊆
      Finset.Ico (i - L) i := by
    intro s hs
    rw [List.mem_toFinset, List.mem_map] at hs
    obtain ⟨p, hp, rfl⟩ := hs
    obtain ⟨hne, hlen, _⟩ := hinv.1 p hp
    have h1 : 1 ≤ p.1.2.length := List.length_pos.mpr hne
    have h2 : p.1.2.length ≤ L := hdepth p hp
    rw [Finset.mem_Ico]
    omega
  calc st.length = (st.map (fun p : ActiveMatch => p.1.1)).length :=
      (List.length_map _ _).symm
    _ = (st.map (fun p : ActiveMatch => p.1.1)).toFinset.card :=
      (List.toFinset_card_of_nodup hnodup).symm
    _ ≤ (Finset.Ico (i - L) i).card := Finset.card_le_card hsub
    _ = i - (i - L) := Nat.card_Ico _ _
    _ ≤ L := by omega

/-- Every post-iteration worklist of the loop has at most `L` entries,
where `L` bounds the depth of the trie. -/
theorem matchStates_length_le {root : Trie} {L : Nat}
    (hdepth : ∀ (path : List String) (t : Trie),
      reach root path = some t → path.length ≤ L) :
    ∀ (tokens : List String) (i : Nat) (st : List ActiveMatch),
      StateInv root i st →
      (matchStates root tokens i st).Forall
        (fun st' : List ActiveMatch => st'.length ≤ L) := by
  intro tokens
  induction tokens with
  | nil => intro i st _; trivial
  | cons token rest ih =>
    intro i st hinv
    have hinv' := stateInv_step hinv token
    rw [matchStates, List.forall_cons]
    refine ⟨?_, ih (i + 1) _ hinv'⟩
    apply stateInv_length_le hinv'
    intro p hp
    exact hdepth p.1.2 p.2 (hinv'.1 p hp).2.2

/-- C8: for every dictionary with maximum concept length `L` and every
token stream, at the end of every iteration of the extraction loop the
worklist carried over to the next token holds at most `L` active
matches. -/
theorem C8_active_match_bound (dictionary : List (List String))
    (tokens : List String) :
    (matchStates (to_trie dictionary) tokens 0 []).Forall
      (fun st : List ActiveMatch => st.length ≤ maxConceptLen dictionary) :=
  matchStates_length_le (fun _ _ h => to_trie_reach_length h) tokens 0 []
    (stateInv_init _)
